import Mathlib

/-!
Shallow embedding of `s3fs/core.py` (`S3FileSystem` and `S3File`): path
resolution, directory-cache invalidation, the listing cache policy, the
retry gateway, read integrity, multipart upload rebalancing and commit.

Modelling conventions:
* paths are `List Char` where the source does string surgery
  (`split_path`, version markers) and `List String` (slash-separated
  segments) where the source treats paths as hierarchies (directory cache);
* bytes are `Nat`; remote responses are supplied as oracle arguments;
* fallible code returns `Except`; a `Nat` fuel argument appears on two
  loops purely as a termination artifact (a proved-sufficient bound is
  supplied by the wrapper), keeping every definition kernel-executable.
Protocol stripping (`_strip_protocol`) and the buffered-file base class are
fsspec collaborators and are outside the embedding, as are the wire client
calls, which appear only as events/oracles.
-/

/-- Python `str.lstrip("/")`. -/
def lstripSlash (s : List Char) : List Char := s.dropWhile (fun c => c = '/')

/-- Split `s` at the first occurrence of the (nonempty) pattern `pat`,
returning the pieces before and after it, or `none` when `pat` does not
occur: models Python `str.partition` / `str.split(sep, 1)`. -/
def splitFirst (pat : List Char) : List Char → Option (List Char × List Char)
  | [] => none
  | c :: cs =>
    if pat = (c :: cs).take pat.length then some ([], (c :: cs).drop pat.length)
    else
      match splitFirst pat cs with
      | none => none
      | some (before, after) => some (c :: before, after)

/-- `S3FileSystem.split_path` (core.py:297–325); `va` is
`self.version_aware`. Returns `(bucket, key, version_id)`. The version
marker is cut out of the key by `keypart.partition("?versionId=")`
unconditionally; the version is only *returned* when the filesystem is
version aware and the version text is nonempty. -/
def split_path (va : Bool) (path : List Char) : List Char × List Char × Option (List Char) :=
  let path := lstripSlash path
  match splitFirst ['/'] path with
  | none => (path, [], none)
  | some (bucket, keypart) =>
    match splitFirst "?versionId=".toList keypart with
    | none => (bucket, keypart, none)
    | some (key, vid) => (bucket, key, if va ∧ vid ≠ [] then some vid else none)

/-- `_coalesce_version_id` (core.py:66–79): collect the distinct non-`None`
version ids of the arguments; more than one distinct id is a `ValueError`
(modelled as `Except.error`), otherwise the unique id (or `None`) results. -/
def coalesce_version_id (args : List (Option (List Char))) : Except Unit (Option (List Char)) :=
  let ids := (args.filterMap id).dedup
  if 1 < ids.length then .error () else .ok ids.head?

/-- Validation errors of `S3File.__init__` (core.py:1802–1810). -/
inductive InitErr where
  | nonKeyPath
  | versionConflict
  | badAcl
deriving DecidableEq

/-- The canned key ACLs (core.py:42–50). -/
def key_acls : List (List Char) :=
  ["private", "public-read", "public-read-write", "authenticated-read",
   "aws-exec-read", "bucket-owner-read", "bucket-owner-full-control"].map String.toList

/-- The validation part of `S3File.__init__` (core.py:1802–1810): split the
path, reject non-key paths, coalesce the explicit `version_id` argument
with the path-carried one, check the ACL.  All of this precedes every
remote call the handle makes. -/
def s3file_init_version (va : Bool) (path : List Char) (version_id : Option (List Char))
    (acl : List Char) : Except InitErr (List Char × List Char × Option (List Char)) :=
  let r := split_path va path
  if r.2.1 = [] then .error .nonKeyPath
  else
    match coalesce_version_id [version_id, r.2.2] with
    | .error _ => .error .versionConflict
    | .ok v =>
      if acl ≠ [] ∧ ¬ acl ∈ key_acls then .error .badAcl
      else .ok (r.1, r.2.1, v)

/-- The version handling of `S3FileSystem._info` (core.py:1042–1053): an
explicit version on a version-unaware filesystem is a `ValueError`; the
root path short-circuits; otherwise the path version and the argument are
coalesced.  All of this precedes every remote call `_info` makes. -/
def info_version (va : Bool) (path : List Char) (version_id : Option (List Char)) :
    Except Unit (Option (List Char)) :=
  let r := split_path va path
  if version_id ≠ none ∧ ¬ va then .error ()
  else if path = "/".toList ∨ path = [] then .ok none
  else coalesce_version_id [r.2.2, version_id]

/-- C2 (counterexample): on a version-unaware filesystem,
`split_path "bucket/key?versionId=v"` returns the key `"key"` — the
`?versionId=` marker is *stripped* from the key, not kept as a literal
suffix as the claim states (the version is indeed `None`). -/
theorem split_path_version_unaware_counterexample :
    (split_path false "bucket/key?versionId=v".toList).2.1 ≠ "key?versionId=v".toList ∧
    split_path false "bucket/key?versionId=v".toList =
      ("bucket".toList, "key".toList, none) := by
  constructor
  · decide
  · decide

/-- C2 (amended): on a version-unaware filesystem the returned version is
always `None`, and the `?versionId=` marker is stripped from the key
exactly as it would be on a version-aware filesystem: bucket and key do
not depend on version awareness. -/
theorem split_path_version_unaware_strips_marker (va : Bool) (path : List Char) :
    (split_path false path).2.2 = none ∧
    (split_path false path).1 = (split_path va path).1 ∧
    (split_path false path).2.1 = (split_path va path).2.1 := by
  unfold split_path
  cases h : splitFirst ['/'] (lstripSlash path) with
  | none => simp only [h]; exact ⟨trivial, trivial, trivial⟩
  | some bk =>
    obtain ⟨b, kp⟩ := bk
    cases h2 : splitFirst "?versionId=".toList kp with
    | none => simp only [h, h2]; exact ⟨trivial, trivial, trivial⟩
    | some kv =>
      obtain ⟨k, v⟩ := kv
      simp only [h, h2]
      exact ⟨by simp, trivial, trivial⟩

lemma dedup_single (a : List Char) : [a].dedup = [a] := by
  rw [List.dedup_cons_of_not_mem (by simp), List.dedup_nil]

lemma coalesce_two_distinct (x y : List Char) (h : x ≠ y) :
    coalesce_version_id [some x, some y] = .error () := by
  unfold coalesce_version_id
  have h1 : ([some x, some y].filterMap id) = [x, y] := rfl
  rw [h1, List.dedup_cons_of_not_mem (by simp [h]), dedup_single]
  simp

lemma coalesce_right_none (a : Option (List Char)) :
    coalesce_version_id [a, none] = .ok a := by
  cases a <;> simp [coalesce_version_id, dedup_single]

lemma coalesce_left_none (a : Option (List Char)) :
    coalesce_version_id [none, a] = .ok a := by
  cases a <;> simp [coalesce_version_id, dedup_single]

lemma coalesce_same (a : Option (List Char)) :
    coalesce_version_id [a, a] = .ok a := by
  cases a with
  | none => simp [coalesce_version_id]
  | some x =>
    unfold coalesce_version_id
    have h1 : ([some x, some x].filterMap id) = [x, x] := rfl
    rw [h1, List.dedup_cons_of_mem (by simp), dedup_single]
    simp

/-- C10: the explicit `version_id` argument and the path-embedded version are
coalesced by `_coalesce_version_id`: two distinct non-`None` ids are a
`ValueError` raised during validation, before any remote call (both in
`S3File.__init__` and in `_info`); otherwise the unique non-`None` id (or
`None`) is the one used. -/
theorem version_id_coalescing :
    (∀ x y : List Char, x ≠ y → coalesce_version_id [some x, some y] = .error ()) ∧
    (∀ a : Option (List Char),
      coalesce_version_id [a, none] = .ok a ∧
      coalesce_version_id [none, a] = .ok a ∧
      coalesce_version_id [a, a] = .ok a) ∧
    (∀ (va : Bool) (path acl x y : List Char),
      (split_path va path).2.2 = some y → x ≠ y → (split_path va path).2.1 ≠ [] →
      s3file_init_version va path (some x) acl = .error .versionConflict) ∧
    (∀ (va : Bool) (path : List Char) (version_id : Option (List Char)) (acl b k : List Char)
        (v : Option (List Char)),
      s3file_init_version va path version_id acl = .ok (b, k, v) →
      coalesce_version_id [version_id, (split_path va path).2.2] = .ok v) ∧
    (∀ (path x y : List Char), (split_path true path).2.2 = some y → x ≠ y →
      ¬ (path = "/".toList ∨ path = []) →
      info_version true path (some x) = .error ()) := by
  refine ⟨coalesce_two_distinct, ?_, ?_, ?_, ?_⟩
  · exact fun a => ⟨coalesce_right_none a, coalesce_left_none a, coalesce_same a⟩
  · intro va path acl x y hy hxy hk
    unfold s3file_init_version
    rw [if_neg hk, hy, coalesce_two_distinct x y hxy]
  · intro va path version_id acl b k v h
    unfold s3file_init_version at h
    by_cases hk : (split_path va path).2.1 = []
    · rw [if_pos hk] at h; exact absurd h (by simp)
    · rw [if_neg hk] at h
      cases hc : coalesce_version_id [version_id, (split_path va path).2.2] with
      | error e => rw [hc] at h; exact absurd h (by simp)
      | ok w =>
        rw [hc] at h
        dsimp only at h
        by_cases hacl : acl ≠ [] ∧ ¬ acl ∈ key_acls
        · rw [if_pos hacl] at h; exact absurd h (by simp)
        · rw [if_neg hacl] at h
          have hw : w = v := by
            simp only [Except.ok.injEq, Prod.mk.injEq] at h
            exact h.2.2
          rw [hw]
  · intro path x y hy hxy hroot
    unfold info_version
    rw [if_neg (by simp), if_neg hroot, hy]
    exact coalesce_two_distinct y x (Ne.symm hxy)

/-- Witness for C10 at concrete inputs. -/
theorem version_id_coalescing_witness :
    coalesce_version_id [some "a".toList, some "b".toList] = .error () ∧
    s3file_init_version true "b/k?versionId=w".toList (some "v".toList) [] =
      .error .versionConflict ∧
    info_version true "b/k?versionId=w".toList (some "v".toList) = .error () := by
  refine ⟨?_, ?_, ?_⟩
  · exact version_id_coalescing.1 _ _ (by decide)
  · exact version_id_coalescing.2.2.1 true _ [] "v".toList "w".toList
      (by decide) (by decide) (by decide)
  · exact version_id_coalescing.2.2.2.2 _ "v".toList "w".toList
      (by decide) (by decide) (by decide)

/-- The directory cache for hierarchy-level claims: cached path keys
(`/`-segment lists) with their payloads (abstracted to `Nat`). -/
abbrev DirCacheK := List (List String × Nat)

/-- `self.dircache.pop(path, None)`. -/
def cachePop (c : DirCacheK) (p : List String) : DirCacheK :=
  c.filter (fun e => decide (e.1 ≠ p))

/-- The `while path: pop(path); path = self._parent(path)` loop of
`invalidate_cache` (core.py:1707–1709); `_parent` drops the last segment
(fsspec, root marker `""` = `[]`). The fuel equals `p.length`, exactly the
number of iterations the loop makes. -/
def invalidateWalk : Nat → DirCacheK → List String → DirCacheK
  | 0, c, _ => c
  | fuel + 1, c, p =>
    match p with
    | [] => c
    | q :: qs => invalidateWalk fuel (cachePop c (q :: qs)) (q :: qs).dropLast

/-- `S3FileSystem.invalidate_cache` (core.py:1701–1709): `None` clears the
whole cache; otherwise pop the path, then walk up the ancestor chain
popping each entry, stopping as soon as the path is empty — so the root
`[]` key is never popped by the walk. -/
def invalidate_cache (c : DirCacheK) (p : Option (List String)) : DirCacheK :=
  match p with
  | none => []
  | some p => invalidateWalk p.length (cachePop c p) p

/-- The set of keys `invalidate_cache (some p)` removes: `p` itself and
every nonempty ancestor (= nonempty strict portion of `p`). -/
def removedBy (p q : List String) : Bool :=
  decide (q = p) || (decide (q ≠ []) && decide (p.take q.length = q))

lemma mem_cachePop (c : DirCacheK) (p : List String) (e : List String × Nat) :
    e ∈ cachePop c p ↔ e ∈ c ∧ e.1 ≠ p := by
  simp [cachePop, List.mem_filter]

lemma take_dropLast_eq_iff (p e1 : List String) (hne : e1 ≠ p) :
    ((p.dropLast).take e1.length = e1) ↔ (p.take e1.length = e1) := by
  rw [List.dropLast_eq_take, List.take_take]
  constructor
  · intro h
    by_cases hl : e1.length ≤ p.length - 1
    · rwa [min_eq_left hl] at h
    · exfalso
      have hlen := congrArg List.length h
      simp [List.length_take] at hlen
      omega
  · intro h
    have hlen := congrArg List.length h
    simp [List.length_take] at hlen
    by_cases hl : e1.length ≤ p.length - 1
    · rwa [min_eq_left hl]
    · exfalso
      have h1 : e1.length = p.length := by omega
      rw [h1, List.take_length] at h
      exact hne h.symm

lemma mem_invalidateWalk :
    ∀ (fuel : Nat) (p : List String) (c : DirCacheK) (e : List String × Nat),
      p.length ≤ fuel →
      (e ∈ invalidateWalk fuel c p ↔
        e ∈ c ∧ ¬ (e.1 ≠ [] ∧ p.take e.1.length = e.1)) := by
  intro fuel
  induction fuel with
  | zero =>
    intro p c e hp
    have hpnil : p = [] := List.eq_nil_of_length_eq_zero (Nat.le_zero.mp hp)
    subst hpnil
    have hcond : ¬ (e.1 ≠ [] ∧ ([] : List String).take e.1.length = e.1) := by
      rintro ⟨h1, h2⟩
      rw [List.take_nil] at h2
      exact h1 h2.symm
    exact ⟨fun hc => ⟨hc, hcond⟩, fun h => h.1⟩
  | succ n ih =>
    intro p c e hp
    cases p with
    | nil =>
      have hcond : ¬ (e.1 ≠ [] ∧ ([] : List String).take e.1.length = e.1) := by
        rintro ⟨h1, h2⟩
        rw [List.take_nil] at h2
        exact h1 h2.symm
      exact ⟨fun hc => ⟨hc, hcond⟩, fun h => h.1⟩
    | cons q qs =>
      have hlen : (q :: qs).dropLast.length ≤ n := by
        simp at hp ⊢
        omega
      rw [show invalidateWalk (n + 1) c (q :: qs) =
            invalidateWalk n (cachePop c (q :: qs)) (q :: qs).dropLast from rfl,
          ih (q :: qs).dropLast (cachePop c (q :: qs)) e hlen, mem_cachePop]
      constructor
      · rintro ⟨⟨hc, hne⟩, hnot⟩
        refine ⟨hc, ?_⟩
        rintro ⟨h1, h2⟩
        exact hnot ⟨h1, (take_dropLast_eq_iff (q :: qs) e.1 hne).2 h2⟩
      · rintro ⟨hc, hnot⟩
        have hne : e.1 ≠ (q :: qs) := by
          intro hcontra
          exact hnot ⟨by simp [hcontra], by rw [hcontra, List.take_length]⟩
        refine ⟨⟨hc, hne⟩, ?_⟩
        rintro ⟨h1, h2⟩
        exact hnot ⟨h1, (take_dropLast_eq_iff (q :: qs) e.1 hne).1 h2⟩

/-- C5 (amended): `invalidate_cache (some p)` removes exactly the entries
whose key is `p` or a *nonempty* ancestor of `p`; the root `[]` entry is
retained (the walk stops before popping it), and every other entry —
sibling subtrees in particular — is untouched. `invalidate_cache none`
clears the entire cache. -/
theorem invalidate_cache_removes_nonroot_ancestors (c : DirCacheK) (p : List String)
    (e : List String × Nat) :
    (e ∈ invalidate_cache c (some p) ↔ e ∈ c ∧ removedBy p e.1 = false) ∧
    invalidate_cache c none = [] ∧
    (e.1 = [] → p ≠ [] → (e ∈ invalidate_cache c (some p) ↔ e ∈ c)) := by
  have hmain : e ∈ invalidate_cache c (some p) ↔ e ∈ c ∧ removedBy p e.1 = false := by
    show e ∈ invalidateWalk p.length (cachePop c p) p ↔ _
    rw [mem_invalidateWalk p.length p (cachePop c p) e (le_refl _), mem_cachePop]
    simp only [removedBy, Bool.or_eq_false_iff, Bool.and_eq_false_iff,
      decide_eq_false_iff_not, not_not]
    constructor
    · rintro ⟨⟨hc, hne⟩, hnot⟩
      refine ⟨hc, hne, ?_⟩
      by_cases h1 : e.1 = []
      · exact Or.inl h1
      · exact Or.inr (fun h2 => hnot ⟨h1, h2⟩)
    · rintro ⟨hc, hne, hrest⟩
      refine ⟨⟨hc, hne⟩, ?_⟩
      rintro ⟨h1, h2⟩
      rcases hrest with h | h
      · exact h1 h
      · exact h h2
  refine ⟨hmain, rfl, ?_⟩
  intro h1 hp
  rw [hmain]
  have hrB : removedBy p e.1 = false := by
    rw [h1]
    unfold removedBy
    rw [decide_eq_false (fun h => hp h.symm)]
    simp
  simp [hrB]

/-- Example cache: entries for `a/b/c`, `a/b`, `a`, the root, and the
sibling `a/d`. -/
def exampleCache : DirCacheK :=
  [(["a", "b", "c"], 0), (["a", "b"], 1), (["a"], 2), ([], 3), (["a", "d"], 4)]

/-- C5 (counterexample): invalidating `a/b/c` removes `a/b/c`, `a/b` and
`a` and leaves the sibling `a/d` — but the root `""` entry is *not*
removed, contrary to the claim. -/
theorem invalidate_cache_root_retained :
    invalidate_cache exampleCache (some ["a", "b", "c"]) = [([], 3), (["a", "d"], 4)] ∧
    ([], 3) ∈ invalidate_cache exampleCache (some ["a", "b", "c"]) := by
  constructor
  · decide
  · decide

/-- Witness for C5 at a concrete cache: the root entry survives
invalidation of a deeper path. -/
theorem invalidate_cache_root_witness :
    ([], 3) ∈ invalidate_cache exampleCache (some ["a", "b", "c"]) ↔
      ([], 3) ∈ exampleCache := by
  exact (invalidate_cache_removes_nonroot_ancestors exampleCache ["a", "b", "c"]
    ([], 3)).2.2 rfl (by decide)

/-- The directory cache for the `_lsdir` policy: keys are segment paths,
values the cached listing (entries abstracted to `Nat`). -/
abbrev DirCacheL := List (List String × List Nat)

/-- `path in self.dircache` / `self.dircache[path]`. -/
def cacheLookup (c : DirCacheL) (p : List String) : Option (List Nat) :=
  match c.find? (fun e => decide (e.1 = p)) with
  | some e => some e.2
  | none => none

/-- `self.dircache[path] = files` (dict assignment). -/
def cacheStore (c : DirCacheL) (p : List String) (v : List Nat) : DirCacheL :=
  (p, v) :: c.filter (fun e => decide (e.1 ≠ p))

/-- Caching behaviour of `S3FileSystem._lsdir` (core.py:549–603).  The
processed remote listing (file entries plus synthesized directory entries)
is supplied as the oracle `fetched`; `delim` is the `delimiter` argument
(`[]` = flat, delimiter-less scan).  The body fetches when the path is
uncached, `refresh` is set, or the scan is flat (line 557); it stores the
result only when a delimiter was used and the result is nonempty
(`if delimiter and files`, line 600); otherwise it serves the cached
listing (line 603). -/
def lsdir (c : DirCacheL) (path : List String) (refresh : Bool) (delim : List Char)
    (fetched : List Nat) : List Nat × DirCacheL :=
  if (cacheLookup c path).isNone ∨ refresh ∨ delim = [] then
    (fetched, if delim ≠ [] ∧ fetched ≠ [] then cacheStore c path fetched else c)
  else ((cacheLookup c path).getD [], c)

lemma mem_cacheStore (c : DirCacheL) (p : List String) (v : List Nat)
    (e : List String × List Nat) :
    e ∈ cacheStore c p v ↔ e = (p, v) ∨ (e ∈ c ∧ e.1 ≠ p) := by
  simp [cacheStore, List.mem_filter]

/-- C6: `_lsdir` writes to the directory cache iff a delimiter was used and
the (freshly fetched) result is nonempty; a flat scan leaves the cache
untouched; and the cache never acquires an empty entry. -/
theorem lsdir_cache_policy (c : DirCacheL) (path : List String) (refresh : Bool)
    (delim : List Char) (fetched : List Nat) :
    ((lsdir c path refresh [] fetched).2 = c) ∧
    ((lsdir c path refresh delim fetched).2 = c ∨
      (delim ≠ [] ∧ fetched ≠ [] ∧
        (lsdir c path refresh delim fetched).2 = cacheStore c path fetched)) ∧
    (((cacheLookup c path).isNone ∨ refresh = true) → delim ≠ [] → fetched ≠ [] →
      (lsdir c path refresh delim fetched).2 = cacheStore c path fetched) ∧
    ((∀ e ∈ c, e.2 ≠ []) → ∀ e ∈ (lsdir c path refresh delim fetched).2, e.2 ≠ []) := by
  refine ⟨?_, ?_, ?_, ?_⟩
  · unfold lsdir
    rw [if_pos (Or.inr (Or.inr rfl)), if_neg (fun h => h.1 rfl)]
  · unfold lsdir
    by_cases hf : (cacheLookup c path).isNone ∨ refresh = true ∨ delim = []
    · rw [if_pos hf]
      by_cases hs : delim ≠ [] ∧ fetched ≠ []
      · rw [if_pos hs]
        exact Or.inr ⟨hs.1, hs.2, rfl⟩
      · rw [if_neg hs]
        exact Or.inl rfl
    · rw [if_neg hf]
      exact Or.inl rfl
  · intro h1 h2 h3
    unfold lsdir
    rw [if_pos ?_, if_pos ⟨h2, h3⟩]
    rcases h1 with h | h
    · exact Or.inl h
    · exact Or.inr (Or.inl h)
  · intro hc e he
    unfold lsdir at he
    by_cases hf : (cacheLookup c path).isNone ∨ refresh = true ∨ delim = []
    · rw [if_pos hf] at he
      by_cases hs : delim ≠ [] ∧ fetched ≠ []
      · rw [if_pos hs] at he
        rcases (mem_cacheStore c path fetched e).1 he with h | h
        · rw [h]
          exact hs.2
        · exact hc e h.1
      · rw [if_neg hs] at he
        exact hc e he
    · rw [if_neg hf] at he
      exact hc e he

/-- Witness for C6 at a concrete cache state: a fresh, delimited, nonempty
listing is stored, and the no-empty-entries invariant holds afterwards. -/
theorem lsdir_cache_policy_witness :
    (lsdir ([] : DirCacheL) ["b"] false ['/'] [7]).2 = cacheStore [] ["b"] [7] ∧
    (∀ e ∈ (lsdir ([] : DirCacheL) ["b"] false ['/'] [7]).2, e.2 ≠ []) := by
  have h := lsdir_cache_policy [] ["b"] false ['/'] [7]
  exact ⟨h.2.2.1 (Or.inl (by decide)) (by decide) (by decide),
    h.2.2.2 (fun e he => absurd he (List.not_mem_nil e))⟩

/-- Remote calls of the listing engine (as far as C9 needs them). -/
inductive RemoteOp where
  | listObjectsV2
  | walkCall
deriving DecidableEq

/-- Validation errors of `_find`. -/
inductive FindErr where
  | emptyPath
  | optionClash
deriving DecidableEq

/-- Python truthiness of the `maxdepth : Option Nat` argument. -/
def mdTruthy : Option Nat → Bool
  | some (_ + 1) => true
  | _ => false

/-- `S3FileSystem._find` (core.py:605–642): the validation steps, in source
order, then the first remote enumeration step.  The first component lists
the remote calls performed; both `ValueError`s (empty bucket, line 622;
`prefix` alongside `withdirs`/`maxdepth`, line 624) are raised before any
remote call, so their traces are empty.  After validation the body
delegates either to the depth-bounded per-level walk (`maxdepth` truthy,
line 630) or to the flat delimiter-less `_lsdir` scan (line 642). -/
def find_trace (va : Bool) (path : List Char) (maxdepth : Option Nat) (withdirs : Bool)
    (pre : List Char) : List RemoteOp × Except FindErr Unit :=
  let r := split_path va path
  if r.1 = [] then ([], .error .emptyPath)
  else if (withdirs ∨ mdTruthy maxdepth) ∧ pre ≠ [] then ([], .error .optionClash)
  else if mdTruthy maxdepth then ([.walkCall], .ok ())
  else ([.listObjectsV2], .ok ())

/-- C9: `_find` on a path with no bucket component always raises the
invalid-argument error ("Cannot traverse all of S3") and performs no
remote call before failing. -/
theorem find_empty_path_rejected (va : Bool) (path : List Char) (maxdepth : Option Nat)
    (withdirs : Bool) (pre : List Char)
    (hempty : (split_path va path).1 = []) :
    find_trace va path maxdepth withdirs pre = ([], .error .emptyPath) := by
  unfold find_trace
  rw [if_pos hempty]

/-- Witness for C9 at the concrete empty and root paths. -/
theorem find_empty_path_rejected_witness :
    find_trace false [] none false [] = ([], .error .emptyPath) ∧
    find_trace false "/".toList (some 2) true "x".toList = ([], .error .emptyPath) := by
  exact ⟨find_empty_path_rejected false [] none false [] (by decide),
    find_empty_path_rejected false "/".toList (some 2) true "x".toList (by decide)⟩

/-- The remote calls `S3File.commit` can issue. -/
inductive CommitCall where
  | abortMPU
  | touchCall
  | putObject (body : List Nat)
  | completeMPU (parts : List (Nat × List Char))
deriving DecidableEq

/-- `S3File.commit` (core.py:1988–2018) together with `_abort_mpu`
(core.py:2038–2046), as the list of remote calls it issues.
`tell` is `self.tell()` (total bytes written), `buffer` is `self.buffer`
(`none` once released), `mpuOpen` is the truthiness of `self.mpu`, and
`parts` is `self.parts` (`none` when no multipart session was initiated,
`some` the committed `(PartNumber, ETag)` list otherwise).  `self.buffer
is None` in the one-shot branch raises `RuntimeError` (line 2008),
modelled as `Except.error`. -/
def commitCalls (tell : Nat) (buffer : Option (List Nat)) (mpuOpen : Bool)
    (parts : Option (List (Nat × List Char))) : Except Unit (List CommitCall) :=
  if tell = 0 then
    match buffer with
    | some _ => .ok ((if mpuOpen then [CommitCall.abortMPU] else []) ++ [CommitCall.touchCall])
    | none => .ok []
  else if (parts.getD []).isEmpty then
    match buffer with
    | some data => .ok [CommitCall.putObject data]
    | none => .error ()
  else .ok [CommitCall.completeMPU (parts.getD [])]

/-- C3: `commit` is a trichotomy.  Zero bytes written: abort any open
session and `touch` an explicit empty object — never complete an empty
multipart session.  Bytes written but no part committed: a single one-shot
`put_object` of the whole buffer.  Otherwise: `complete_multipart_upload`
with the full ordered part list. -/
theorem s3file_commit_trichotomy (tell : Nat) (buffer : Option (List Nat)) (mpuOpen : Bool)
    (parts : Option (List (Nat × List Char))) :
    (∀ b, tell = 0 → buffer = some b →
      commitCalls tell buffer mpuOpen parts =
        .ok ((if mpuOpen then [CommitCall.abortMPU] else []) ++ [CommitCall.touchCall])) ∧
    (∀ calls ps, commitCalls tell buffer mpuOpen parts = .ok calls → tell = 0 →
      CommitCall.completeMPU ps ∉ calls) ∧
    (∀ b, tell ≠ 0 → (parts = none ∨ parts = some []) → buffer = some b →
      commitCalls tell buffer mpuOpen parts = .ok [CommitCall.putObject b]) ∧
    (∀ ps, tell ≠ 0 → parts = some ps → ps ≠ [] →
      commitCalls tell buffer mpuOpen parts = .ok [CommitCall.completeMPU ps]) := by
  refine ⟨?_, ?_, ?_, ?_⟩
  · intro b h0 hb
    subst hb
    unfold commitCalls
    rw [if_pos h0]
  · intro calls ps hcalls h0
    unfold commitCalls at hcalls
    rw [if_pos h0] at hcalls
    cases buffer with
    | some b =>
      simp only [Except.ok.injEq] at hcalls
      subst hcalls
      cases hm : mpuOpen <;> simp
    | none =>
      simp only [Except.ok.injEq] at hcalls
      subst hcalls
      simp
  · intro b hne hp hb
    subst hb
    unfold commitCalls
    rw [if_neg hne, if_pos ?_]
    rcases hp with h | h <;> simp [h]
  · intro ps hne hp hps
    subst hp
    unfold commitCalls
    rw [if_neg hne, if_neg ?_]
    · simp
    · simp [hps]

/-- Witness for C3 at concrete states: empty commit with an open session,
one-shot commit, and a multipart completion. -/
theorem s3file_commit_trichotomy_witness :
    commitCalls 0 (some []) true none =
      .ok [CommitCall.abortMPU, CommitCall.touchCall] ∧
    commitCalls 3 (some [1, 2, 3]) false none = .ok [CommitCall.putObject [1, 2, 3]] ∧
    commitCalls 3 (some []) true (some [(1, "e".toList)]) =
      .ok [CommitCall.completeMPU [(1, "e".toList)]] := by
  refine ⟨?_, ?_, ?_⟩
  · exact (s3file_commit_trichotomy 0 (some []) true none).1 [] rfl rfl
  · exact (s3file_commit_trichotomy 3 (some [1, 2, 3]) false none).2.2.1 [1, 2, 3]
      (by decide) (Or.inl rfl) rfl
  · exact (s3file_commit_trichotomy 3 (some []) true (some [(1, "e".toList)])).2.2.2
      [(1, "e".toList)] (by decide) rfl (by decide)

/-- Events of a mutating operation: an (attempted) remote call, or a
directory-cache invalidation. -/
inductive Ev where
  | remote (op : String)
  | inval
deriving DecidableEq

/-- `true` iff every `inval` event in the trace is preceded by at least one
remote event; `seen` records whether a remote event has occurred. -/
def invalsAfterSomeRemote : Bool → List Ev → Bool
  | _, [] => true
  | _, Ev.remote _ :: t => invalsAfterSomeRemote true t
  | seen, Ev.inval :: t => seen && invalsAfterSomeRemote seen t

/-- Does the trace contain a cache invalidation? -/
def hasInval : List Ev → Bool
  | [] => false
  | Ev.inval :: _ => true
  | _ :: t => hasInval t

/-- The claimed discipline for a mutating operation, as a function of
whether its mutating remote call succeeds: every invalidation comes after
some remote call was issued, and a failed mutation performs no
invalidation at all. -/
def invalOnlyAfterRemoteSuccess (f : Bool → List Ev) : Prop :=
  invalsAfterSomeRemote false (f true) = true ∧ hasInval (f false) = false

/-- `S3FileSystem._touch` (core.py:835–849), `truncate=True` path:
`put_object`, then on success invalidate the parent. -/
def touch_trace (ok : Bool) : List Ev :=
  [Ev.remote "put_object"] ++ (if ok then [Ev.inval] else [])

/-- `S3FileSystem._mkdir` (core.py:699–710), bucket creation path:
`create_bucket`, then on success invalidate root and bucket. -/
def mkdir_trace (ok : Bool) : List Ev :=
  [Ev.remote "create_bucket"] ++ (if ok then [Ev.inval, Ev.inval] else [])

/-- `S3FileSystem._merge` (core.py:1432–1462), after validation: create the
session, copy the `n` sources as parts, complete, then on success
invalidate the target path. -/
def merge_trace (n : Nat) (ok : Bool) : List Ev :=
  [Ev.remote "create_multipart_upload"] ++
    List.replicate n (Ev.remote "upload_part_copy") ++
    [Ev.remote "complete_multipart_upload"] ++ (if ok then [Ev.inval] else [])

/-- `S3FileSystem._copy_basic` (core.py:1475–1486): `copy_object`, then on
success invalidate the destination. -/
def copy_basic_trace (ok : Bool) : List Ev :=
  [Ev.remote "copy_object"] ++ (if ok then [Ev.inval] else [])

/-- `S3FileSystem._copy_etag_preserved` (core.py:1488–1532): create the
session, probe the `n` source parts with `head_object` (issued
concurrently via `gather`, all awaited before any part copy), copy the
`n` derived byte ranges as parts, complete, then on success invalidate
the destination. -/
def copy_etag_trace (n : Nat) (ok : Bool) : List Ev :=
  [Ev.remote "create_multipart_upload"] ++
    List.replicate n (Ev.remote "head_object") ++
    List.replicate n (Ev.remote "upload_part_copy") ++
    [Ev.remote "complete_multipart_upload"] ++ (if ok then [Ev.inval] else [])

/-- `S3FileSystem._copy_managed` (core.py:1544–1572): create the session,
`n` serial part copies, complete, then on success invalidate the
destination. -/
def copy_managed_trace (n : Nat) (ok : Bool) : List Ev :=
  [Ev.remote "create_multipart_upload"] ++
    List.replicate n (Ev.remote "upload_part_copy") ++
    [Ev.remote "complete_multipart_upload"] ++ (if ok then [Ev.inval] else [])

/-- The cache-invalidation tail of `S3File.commit` (core.py:2022–2032): the
committing remote call, then on success the `k` ancestor invalidations the
staleness walk performs. -/
def commit_trace (k : Nat) (ok : Bool) : List Ev :=
  [Ev.remote "complete_multipart_upload"] ++ (if ok then List.replicate k Ev.inval else [])

/-- `S3FileSystem._bulk_delete` (core.py:1622–1646) after validation: the
parent of every path is invalidated (lines 1644–1645) *before* the
`delete_objects` call is issued (line 1646) — invalidation happens whether
or not the delete succeeds. -/
def bulk_delete_trace (npaths : Nat) (_ok : Bool) : List Ev :=
  List.replicate npaths Ev.inval ++ [Ev.remote "delete_objects"]

lemma invalsAfter_append_remotes (s : String) (n : Nat) (t : List Ev) :
    invalsAfterSomeRemote true (List.replicate n (Ev.remote s) ++ t) =
      invalsAfterSomeRemote true t := by
  induction n with
  | zero => rfl
  | succ m ih => simpa [List.replicate_succ] using ih

lemma invalsAfter_replicate_inval (k : Nat) :
    invalsAfterSomeRemote true (List.replicate k Ev.inval) = true := by
  induction k with
  | zero => rfl
  | succ m ih => simpa [List.replicate_succ, invalsAfterSomeRemote] using ih

lemma hasInval_append (a b : List Ev) :
    hasInval (a ++ b) = (hasInval a || hasInval b) := by
  induction a with
  | nil => rfl
  | cons e t ih =>
    cases e with
    | remote op => simpa [hasInval] using ih
    | inval => simp [hasInval]

lemma hasInval_replicate_remote (s : String) (n : Nat) :
    hasInval (List.replicate n (Ev.remote s)) = false := by
  induction n with
  | zero => rfl
  | succ m ih => simpa [List.replicate_succ, hasInval] using ih

lemma session_trace_ok (s1 s2 s3 : String) (n : Nat) :
    invalsAfterSomeRemote false
      ([Ev.remote s1] ++ List.replicate n (Ev.remote s2) ++ [Ev.remote s3] ++
        [Ev.inval]) = true := by
  have h : [Ev.remote s1] ++ List.replicate n (Ev.remote s2) ++ [Ev.remote s3] ++
      [Ev.inval] =
      Ev.remote s1 :: (List.replicate n (Ev.remote s2) ++ (Ev.remote s3 :: [Ev.inval])) := by
    simp [List.append_assoc]
  rw [h]
  show invalsAfterSomeRemote true
    (List.replicate n (Ev.remote s2) ++ (Ev.remote s3 :: [Ev.inval])) = true
  rw [invalsAfter_append_remotes]
  rfl

lemma session_trace_fail (s1 s2 s3 : String) (n : Nat) :
    hasInval ([Ev.remote s1] ++ List.replicate n (Ev.remote s2) ++ [Ev.remote s3] ++
      ([] : List Ev)) = false := by
  rw [hasInval_append, hasInval_append, hasInval_append, hasInval_replicate_remote]
  rfl

lemma session_trace4_ok (s1 s2 s3 s4 : String) (m n : Nat) :
    invalsAfterSomeRemote false
      ([Ev.remote s1] ++ List.replicate m (Ev.remote s2) ++
        List.replicate n (Ev.remote s3) ++ [Ev.remote s4] ++ [Ev.inval]) = true := by
  have h : [Ev.remote s1] ++ List.replicate m (Ev.remote s2) ++
      List.replicate n (Ev.remote s3) ++ [Ev.remote s4] ++ [Ev.inval] =
      Ev.remote s1 :: (List.replicate m (Ev.remote s2) ++
        (List.replicate n (Ev.remote s3) ++ (Ev.remote s4 :: [Ev.inval]))) := by
    simp [List.append_assoc]
  rw [h]
  show invalsAfterSomeRemote true
    (List.replicate m (Ev.remote s2) ++
      (List.replicate n (Ev.remote s3) ++ (Ev.remote s4 :: [Ev.inval]))) = true
  rw [invalsAfter_append_remotes, invalsAfter_append_remotes]
  rfl

lemma session_trace4_fail (s1 s2 s3 s4 : String) (m n : Nat) :
    hasInval ([Ev.remote s1] ++ List.replicate m (Ev.remote s2) ++
      List.replicate n (Ev.remote s3) ++ [Ev.remote s4] ++ ([] : List Ev)) = false := by
  rw [hasInval_append, hasInval_append, hasInval_append, hasInval_append,
    hasInval_replicate_remote, hasInval_replicate_remote]
  rfl

/-- C4 (counterexample): `_bulk_delete` violates the
invalidate-only-after-the-remote-call-succeeds discipline — its trace for a
single path starts with the invalidation, before the `delete_objects`
call, and the invalidation happens even when the delete fails. -/
theorem bulk_delete_invalidates_before_remote :
    ¬ invalOnlyAfterRemoteSuccess (bulk_delete_trace 1) ∧
    (bulk_delete_trace 1 true).head? = some Ev.inval ∧
    hasInval (bulk_delete_trace 1 false) = true := by
  refine ⟨?_, by decide, by decide⟩
  intro h
  exact absurd h.2 (by decide)

/-- C4 (amended): for touch, mkdir, merge, all three copy strategies
(basic, etag-preserving multipart, managed multipart) and the commit
tail, cache invalidation is sequenced strictly after the mutating remote
call and only on success; `_bulk_delete`, however, invalidates the parent
entries of the deleted paths *before* issuing `delete_objects` (and
regardless of its outcome). -/
theorem invalidation_ordering_amended :
    invalOnlyAfterRemoteSuccess touch_trace ∧
    invalOnlyAfterRemoteSuccess mkdir_trace ∧
    (∀ n, invalOnlyAfterRemoteSuccess (merge_trace n)) ∧
    invalOnlyAfterRemoteSuccess copy_basic_trace ∧
    (∀ n, invalOnlyAfterRemoteSuccess (copy_etag_trace n)) ∧
    (∀ n, invalOnlyAfterRemoteSuccess (copy_managed_trace n)) ∧
    (∀ k, invalOnlyAfterRemoteSuccess (commit_trace k)) ∧
    (∀ npaths ok, 0 < npaths →
      (bulk_delete_trace npaths ok).head? = some Ev.inval ∧
      hasInval (bulk_delete_trace npaths false) = true) := by
  refine ⟨⟨by decide, by decide⟩, ⟨by decide, by decide⟩, ?_, ⟨by decide, by decide⟩,
    ?_, ?_, ?_, ?_⟩
  · intro n
    exact ⟨session_trace_ok _ _ _ n, session_trace_fail _ _ _ n⟩
  · intro n
    exact ⟨session_trace4_ok _ _ _ _ n n, session_trace4_fail _ _ _ _ n n⟩
  · intro n
    exact ⟨session_trace_ok _ _ _ n, session_trace_fail _ _ _ n⟩
  · intro k
    constructor
    · show invalsAfterSomeRemote true (List.replicate k Ev.inval) = true
      exact invalsAfter_replicate_inval k
    · rfl
  · intro npaths ok hn
    constructor
    · cases npaths with
      | zero => exact absurd hn (by omega)
      | succ m => simp [bulk_delete_trace, List.replicate_succ]
    · cases npaths with
      | zero => exact absurd hn (by omega)
      | succ m => simp [bulk_delete_trace, List.replicate_succ, hasInval]

/-- Witness for C4's amended theorem at a concrete batch size. -/
theorem invalidation_ordering_amended_witness :
    (bulk_delete_trace 2 true).head? = some Ev.inval ∧
    hasInval (bulk_delete_trace 2 false) = true := by
  exact invalidation_ordering_amended.2.2.2.2.2.2.2 2 true (by decide)

/-- Remote-side errors a ranged `get_object` can produce (as far as the
read path needs them). -/
inductive S3Err where
  | preconditionFailed
  | otherRemote (code : Nat)
deriving DecidableEq

/-- The remote object as the store currently holds it. -/
structure RemoteObject where
  etag : List Char
  content : List Nat
deriving DecidableEq

/-- The store's `get_object` with a byte range `[start, fin)` and an
optional `IfMatch` precondition: a mismatched expected etag yields
PreconditionFailed (HTTP 412) instead of data. -/
def get_object_range (obj : RemoteObject) (ifMatch : Option (List Char)) (start fin : Nat) :
    Except S3Err (List Nat) :=
  match ifMatch with
  | some tag =>
    if tag = obj.etag then .ok ((obj.content.drop start).take (fin - start))
    else .error .preconditionFailed
  | none => .ok ((obj.content.drop start).take (fin - start))

/-- Module-level `_fetch_range` (core.py:2049–2070): `start == end`
short-circuits to `b""` with no remote call; otherwise one ranged
`get_object` carrying `req_kw` (which, for a read handle, holds the
`IfMatch` etag). -/
def fetch_range (obj : RemoteObject) (ifMatch : Option (List Char)) (start fin : Nat) :
    Except S3Err (List Nat) :=
  if start = fin then .ok []
  else get_object_range obj ifMatch start fin

/-- Modelled from the spec: `translate_boto_error` lives in `s3fs/errors.py`,
which is not part of `src/`.  Per the spec's error taxonomy
("content-expired: integrity precondition failed mid-read") and the handler
in `S3File._fetch_range` (core.py:1931, which tests for
`errno.EINVAL` and a "pre-conditions" message), a PreconditionFailed remote
response translates to `OSError(EINVAL, "...pre-conditions...")`; other
remote errors keep their code and lack that marker. -/
inductive TranslatedErr where
  | osError (errnoCode : Nat) (msgHasPre : Bool)
deriving DecidableEq

/-- `errno.EINVAL`. -/
def EINVAL : Nat := 22

/-- Modelled from the spec: the gateway's translation of the remote error
(see `TranslatedErr`). -/
def translate_remote_error : S3Err → TranslatedErr
  | .preconditionFailed => .osError EINVAL true
  | .otherRemote code => .osError code false

/-- Errors surfaced by `S3File._fetch_range`. -/
inductive ReadErr where
  | fileExpired
  | passthrough (e : TranslatedErr)
deriving DecidableEq

/-- `S3File._fetch_range` (core.py:1918–1936): delegates to the module
`_fetch_range` with `req_kw` carrying `IfMatch = self.details["ETag"]` as
recorded at open time (core.py:1848–1849); an `OSError(EINVAL)` whose
message mentions "pre-conditions" is converted to `FileExpired`, any other
error is re-raised. -/
def s3file_fetch_range (openETag : List Char) (obj : RemoteObject) (start fin : Nat) :
    Except ReadErr (List Nat) :=
  match fetch_range obj (some openETag) start fin with
  | .ok bs => .ok bs
  | .error e =>
    match translate_remote_error e with
    | .osError code hasPre =>
      if code = EINVAL ∧ hasPre = true then .error .fileExpired
      else .error (.passthrough (.osError code hasPre))

/-- C8: every nonempty ranged read of a read handle carries the open-time
etag as an `IfMatch` precondition: while the remote object still has that
etag the read returns exactly the requested bytes, and once the remote
object's etag has changed the read surfaces `FileExpired` rather than
bytes.  (`start = fin` short-circuits without any remote call.) -/
theorem s3file_read_integrity (openETag : List Char) (obj : RemoteObject) (start fin : Nat) :
    (start = fin → s3file_fetch_range openETag obj start fin = .ok []) ∧
    (start ≠ fin → obj.etag = openETag →
      s3file_fetch_range openETag obj start fin =
        .ok ((obj.content.drop start).take (fin - start))) ∧
    (start ≠ fin → obj.etag ≠ openETag →
      s3file_fetch_range openETag obj start fin = .error .fileExpired) := by
  refine ⟨?_, ?_, ?_⟩
  · intro h
    unfold s3file_fetch_range fetch_range
    rw [if_pos h]
  · intro hne htag
    unfold s3file_fetch_range fetch_range get_object_range
    rw [if_neg hne]
    simp only
    rw [if_pos htag.symm]
  · intro hne htag
    unfold s3file_fetch_range fetch_range get_object_range
    rw [if_neg hne]
    simp only
    rw [if_neg (fun h => htag h.symm)]
    show (match translate_remote_error S3Err.preconditionFailed with
      | .osError code hasPre =>
        if code = EINVAL ∧ hasPre = true then Except.error ReadErr.fileExpired
        else Except.error (.passthrough (.osError code hasPre))) = Except.error ReadErr.fileExpired
    rw [show translate_remote_error S3Err.preconditionFailed = .osError EINVAL true from rfl]
    simp

/-- Witness for C8 at a concrete object: matching etag returns the slice,
changed etag yields `FileExpired`, empty range short-circuits. -/
theorem s3file_read_integrity_witness :
    s3file_fetch_range "e1".toList ⟨"e1".toList, [10, 11, 12, 13]⟩ 1 3 = .ok [11, 12] ∧
    s3file_fetch_range "e1".toList ⟨"e2".toList, [10, 11, 12, 13]⟩ 1 3 =
      .error .fileExpired ∧
    s3file_fetch_range "e1".toList ⟨"e2".toList, [10, 11, 12, 13]⟩ 2 2 = .ok [] := by
  refine ⟨?_, ?_, ?_⟩
  · have h := (s3file_read_integrity "e1".toList ⟨"e1".toList, [10, 11, 12, 13]⟩ 1 3).2.1
      (by decide) (by decide)
    simpa using h
  · exact (s3file_read_integrity "e1".toList ⟨"e2".toList, [10, 11, 12, 13]⟩ 1 3).2.2
      (by decide) (by decide)
  · exact (s3file_read_integrity "e1".toList ⟨"e2".toList, [10, 11, 12, 13]⟩ 2 2).1 rfl

/-- Outcome of one attempted remote call inside `_call_s3`'s loop:
success, a retryable error (`S3_RETRYABLE_ERRORS = (socket.timeout,)`,
core.py:37), or any other exception. -/
inductive AttemptRes (α : Type) where
  | ok (v : α)
  | timeoutErr (e : Nat)
  | otherErr (e : Nat)

/-- The domain error taxonomy produced by the gateway's translation
(`translate_boto_error`, an error-glue collaborator per the spec); the
translation itself is an oracle parameter below. -/
inductive DomainErr where
  | notFound
  | permissionDenied
  | alreadyExists
  | conflictErr
  | invalidArgument
  | genericRemote (code : Nat)
deriving DecidableEq

/-- `S3FileSystem.retries` (core.py:156). -/
def S3FileSystem_retries : Nat := 5

/-- The sleep before retrying attempt `i`:
`min(1.7 ** i * 0.1, 15)` seconds (core.py:251). -/
def backoff (i : Nat) : ℚ := min ((17 / 10 : ℚ) ^ i * (1 / 10)) 15

/-- Result of the retry loop: the successful value (if any), the error
variable `err` as left by the loop, the number of attempts made, and the
sleeps performed. -/
structure CallOutcome (α : Type) where
  result : Option α
  finalErr : Option Nat
  attempts : Nat
  sleeps : List ℚ

/-- The `for i in range(self.retries)` loop of `_call_s3`
(core.py:244–255): a success returns immediately; a retryable error is
recorded, slept on with `backoff i`, and retried; any other error breaks
out of the loop at once. -/
def call_s3_loop (oracle : Nat → AttemptRes α) : Nat → Nat → Option Nat → CallOutcome α
  | _, 0, lastE => ⟨none, lastE, 0, []⟩
  | i, fuel + 1, _ =>
    match oracle i with
    | .ok v => ⟨some v, none, 1, []⟩
    | .otherErr e => ⟨none, some e, 1, []⟩
    | .timeoutErr e =>
      let r := call_s3_loop oracle (i + 1) fuel (some e)
      ⟨r.result, r.finalErr, r.attempts + 1, backoff i :: r.sleeps⟩

/-- `S3FileSystem._call_s3` (core.py:236–266): run the retry loop over the
remote attempt oracle; on failure raise the translation of the error the
loop left behind.  Returns (result, attempts made, sleeps performed). -/
def call_s3 (translate : Nat → DomainErr) (retries : Nat) (oracle : Nat → AttemptRes α) :
    Except DomainErr α × Nat × List ℚ :=
  let r := call_s3_loop oracle 0 retries none
  (match r.result with
   | some v => .ok v
   | none => .error (translate (r.finalErr.getD 0)),
   r.attempts, r.sleeps)

lemma call_s3_loop_ok_step (oracle : Nat → AttemptRes α) (i f : Nat) (le : Option Nat)
    (v : α) (h : oracle i = .ok v) :
    call_s3_loop oracle i (f + 1) le = ⟨some v, none, 1, []⟩ := by
  unfold call_s3_loop
  rw [h]

lemma call_s3_loop_other_step (oracle : Nat → AttemptRes α) (i f : Nat) (le : Option Nat)
    (e : Nat) (h : oracle i = .otherErr e) :
    call_s3_loop oracle i (f + 1) le = ⟨none, some e, 1, []⟩ := by
  unfold call_s3_loop
  rw [h]

lemma call_s3_loop_timeout_step (oracle : Nat → AttemptRes α) (i f : Nat) (le : Option Nat)
    (e : Nat) (h : oracle i = .timeoutErr e) :
    call_s3_loop oracle i (f + 1) le =
      ⟨(call_s3_loop oracle (i + 1) f (some e)).result,
       (call_s3_loop oracle (i + 1) f (some e)).finalErr,
       (call_s3_loop oracle (i + 1) f (some e)).attempts + 1,
       backoff i :: (call_s3_loop oracle (i + 1) f (some e)).sleeps⟩ := by
  conv_lhs => rw [call_s3_loop]
  rw [h]

lemma call_s3_loop_attempts_le (oracle : Nat → AttemptRes α) :
    ∀ (fuel i : Nat) (le : Option Nat), (call_s3_loop oracle i fuel le).attempts ≤ fuel := by
  intro fuel
  induction fuel with
  | zero => intro i le; exact Nat.le_refl 0
  | succ n ih =>
    intro i le
    cases h : oracle i with
    | ok v =>
      rw [call_s3_loop_ok_step oracle i n le v h]
      show 1 ≤ n + 1
      omega
    | otherErr e =>
      rw [call_s3_loop_other_step oracle i n le e h]
      show 1 ≤ n + 1
      omega
    | timeoutErr e =>
      rw [call_s3_loop_timeout_step oracle i n le e h]
      show (call_s3_loop oracle (i + 1) n (some e)).attempts + 1 ≤ n + 1
      have := ih (i + 1) (some e)
      omega

lemma range_map_backoff_shift (i k : Nat) :
    (List.range (k + 1)).map (fun j => backoff (i + j)) =
      backoff i :: (List.range k).map (fun j => backoff (i + 1 + j)) := by
  rw [List.range_succ_eq_map, List.map_cons, List.map_map]
  congr 1
  apply List.map_congr_left
  intro a _
  show backoff (i + (a + 1)) = backoff (i + 1 + a)
  congr 1
  omega

lemma call_s3_loop_run (oracle : Nat → AttemptRes α) :
    ∀ (k fuel i : Nat) (le : Option Nat), k < fuel →
      (∀ j, j < k → ∃ e, oracle (i + j) = .timeoutErr e) →
      ((∀ v, oracle (i + k) = .ok v →
        call_s3_loop oracle i fuel le =
          ⟨some v, none, k + 1, (List.range k).map (fun j => backoff (i + j))⟩) ∧
       (∀ e, oracle (i + k) = .otherErr e →
        call_s3_loop oracle i fuel le =
          ⟨none, some e, k + 1, (List.range k).map (fun j => backoff (i + j))⟩)) := by
  intro k
  induction k with
  | zero =>
    intro fuel i le hk _
    obtain ⟨f, rfl⟩ : ∃ f, fuel = f + 1 := ⟨fuel - 1, by omega⟩
    constructor
    · intro v hv
      rw [Nat.add_zero] at hv
      rw [call_s3_loop_ok_step oracle i f le v hv]
      rfl
    · intro e he
      rw [Nat.add_zero] at he
      rw [call_s3_loop_other_step oracle i f le e he]
      rfl
  | succ m ih =>
    intro fuel i le hk hpre
    obtain ⟨f, rfl⟩ : ∃ f, fuel = f + 1 := ⟨fuel - 1, by omega⟩
    obtain ⟨e0, he0⟩ := hpre 0 (Nat.succ_pos m)
    rw [Nat.add_zero] at he0
    have hpre2 : ∀ j, j < m → ∃ e, oracle (i + 1 + j) = .timeoutErr e := by
      intro j hj
      obtain ⟨e2, he2⟩ := hpre (j + 1) (by omega)
      exact ⟨e2, by rw [show i + 1 + j = i + (j + 1) by omega]; exact he2⟩
    have hm := ih f (i + 1) (some e0) (by omega) hpre2
    constructor
    · intro v hv
      have h1 := hm.1 v (by rw [show i + 1 + m = i + (m + 1) by omega]; exact hv)
      rw [call_s3_loop_timeout_step oracle i f le e0 he0, h1, range_map_backoff_shift]
    · intro e he
      have h1 := hm.2 e (by rw [show i + 1 + m = i + (m + 1) by omega]; exact he)
      rw [call_s3_loop_timeout_step oracle i f le e0 he0, h1, range_map_backoff_shift]

lemma call_s3_loop_exhaust (oracle : Nat → AttemptRes α) :
    ∀ (fuel i : Nat) (le : Option Nat),
      (∀ j, j < fuel → ∃ e, oracle (i + j) = .timeoutErr e) →
      ∀ e, 0 < fuel → oracle (i + (fuel - 1)) = .timeoutErr e →
        call_s3_loop oracle i fuel le =
          ⟨none, some e, fuel, (List.range fuel).map (fun j => backoff (i + j))⟩ := by
  intro fuel
  induction fuel with
  | zero => intro i le _ e h; exact absurd h (by omega)
  | succ n ih =>
    intro i le hall e _ hlast
    obtain ⟨e0, he0⟩ := hall 0 (Nat.succ_pos n)
    rw [Nat.add_zero] at he0
    cases n with
    | zero =>
      rw [Nat.add_zero] at hlast
      rw [hlast] at he0
      injection he0 with h0
      subst h0
      rw [call_s3_loop_timeout_step oracle i 0 le e hlast]
      rw [show call_s3_loop oracle (i + 1) 0 (some e) = ⟨none, some e, 0, []⟩ from rfl,
        range_map_backoff_shift]
      rfl
    | succ m =>
      have hall2 : ∀ j, j < m + 1 → ∃ e2, oracle (i + 1 + j) = .timeoutErr e2 := by
        intro j hj
        obtain ⟨e2, he2⟩ := hall (j + 1) (by omega)
        exact ⟨e2, by rw [show i + 1 + j = i + (j + 1) by omega]; exact he2⟩
      have hlast2 : oracle (i + 1 + (m + 1 - 1)) = .timeoutErr e := by
        rw [show i + 1 + (m + 1 - 1) = i + (m + 2 - 1) by omega]
        exact hlast
      have h1 := ih (i + 1) (some e0) hall2 e (Nat.succ_pos m) hlast2
      rw [call_s3_loop_timeout_step oracle i (m + 1) le e0 he0, h1,
        range_map_backoff_shift i (m + 1)]

/-- C7: `_call_s3` retries only timeouts (`S3_RETRYABLE_ERRORS`), sleeping
`min(1.7^i * 0.1, 15)` seconds before retry `i + 1` — an exponential
backoff that starts at 0.1 s and is capped at 15 s; any other error aborts
on its first occurrence; at most `retries` attempts (default
`S3FileSystem_retries = 5`) are made, and the error finally raised is the
translation of the decisive error into the domain taxonomy. -/
theorem call_s3_retry_policy (translate : Nat → DomainErr) (retries : Nat)
    (oracle : Nat → AttemptRes α) :
    ((call_s3 translate retries oracle).2.1 ≤ retries) ∧
    (∀ k v, k < retries → (∀ j, j < k → ∃ e, oracle j = .timeoutErr e) →
      oracle k = .ok v →
      call_s3 translate retries oracle = (.ok v, k + 1, (List.range k).map backoff)) ∧
    (∀ k e, k < retries → (∀ j, j < k → ∃ e2, oracle j = .timeoutErr e2) →
      oracle k = .otherErr e →
      call_s3 translate retries oracle =
        (.error (translate e), k + 1, (List.range k).map backoff)) ∧
    (∀ e, 0 < retries → (∀ j, j < retries → ∃ e2, oracle j = .timeoutErr e2) →
      oracle (retries - 1) = .timeoutErr e →
      call_s3 translate retries oracle =
        (.error (translate e), retries, (List.range retries).map backoff)) ∧
    (backoff 0 = 1 / 10 ∧ ∀ i, backoff i ≤ 15) := by
  have hmap : ∀ k : Nat, (List.range k).map (fun j => backoff (0 + j)) =
      (List.range k).map backoff := by
    intro k
    apply List.map_congr_left
    intro a _
    rw [Nat.zero_add]
  refine ⟨?_, ?_, ?_, ?_, ?_, ?_⟩
  · show (call_s3_loop oracle 0 retries none).attempts ≤ retries
    exact call_s3_loop_attempts_le oracle retries 0 none
  · intro k v hk hpre hv
    have h := (call_s3_loop_run oracle k retries 0 none hk
      (by intro j hj; simpa using hpre j hj)).1 v (by simpa using hv)
    unfold call_s3
    rw [h, hmap]
  · intro k e hk hpre he
    have h := (call_s3_loop_run oracle k retries 0 none hk
      (by intro j hj; simpa using hpre j hj)).2 e (by simpa using he)
    unfold call_s3
    rw [h, hmap]
    rfl
  · intro e hr hall hlast
    have h := call_s3_loop_exhaust oracle retries 0 none
      (by intro j hj; simpa using hall j hj) e hr (by simpa using hlast)
    unfold call_s3
    rw [h, hmap]
    rfl
  · unfold backoff
    rw [pow_zero, one_mul]
    exact min_eq_left (by norm_num)
  · intro i
    exact min_le_right _ _

/-- Witness for C7: with the default 5 retries, a non-timeout failure on
the first attempt aborts immediately with the translated error and no
sleeps; a first-attempt success returns at once. -/
theorem call_s3_retry_policy_witness :
    call_s3 DomainErr.genericRemote S3FileSystem_retries
        (fun _ => (AttemptRes.otherErr 9 : AttemptRes Nat)) =
      (.error (DomainErr.genericRemote 9), 1, []) ∧
    call_s3 DomainErr.genericRemote S3FileSystem_retries
        (fun _ => (AttemptRes.ok 7 : AttemptRes Nat)) = (.ok 7, 1, []) := by
  constructor
  · have h := (call_s3_retry_policy DomainErr.genericRemote S3FileSystem_retries
      (fun _ => (AttemptRes.otherErr 9 : AttemptRes Nat))).2.2.1 0 9
      (by decide) (fun j hj => absurd hj (by omega)) rfl
    simpa using h
  · have h := (call_s3_retry_policy DomainErr.genericRemote S3FileSystem_retries
      (fun _ => (AttemptRes.ok 7 : AttemptRes Nat))).2.1 0 7
      (by decide) (fun j hj => absurd hj (by omega)) rfl
    simpa using h

/-- `S3File.part_min` (core.py:1785): 5 MiB. -/
def part_min : Nat := 5 * 2 ^ 20

/-- `S3File.part_max` (core.py:1786): 5 GiB. -/
def part_max : Nat := 5 * 2 ^ 30

lemma part_min_eq : part_min = 5242880 := by norm_num [part_min]

lemma part_max_eq : part_max = 5368709120 := by norm_num [part_max]

/-- The `while data1:` loop of `S3File._upload_chunk` (core.py:1956–1982),
returning the uploaded part bodies in part-number order.  `pending` is the
segment held in `data1` at the loop head, `rest` the still-unread tail of
the buffer, `bs` is `self.blocksize`.  One iteration shifts
(`data0, data1 = data1, buffer.read(blocksize)`); when the new read is
nonempty but short (`0 < data1_size < blocksize`) it is merged into the
previous block, and the merged remainder is uploaded whole when
`remainder_size = blocksize + data1_size <= part_max`, else split at
`remainder_size // 2`; finally `data0` is uploaded.  The fuel argument
only serves termination: any `fuel > pending.length + rest.length`
computes the loop (the wrapper passes such a bound). -/
def upload_chunk_loop (bs : Nat) : Nat → List Nat → List Nat → List (List Nat)
  | 0, _, _ => []
  | fuel + 1, pending, rest =>
    if pending = [] then []
    else if 0 < (rest.take bs).length ∧ (rest.take bs).length < bs then
      if bs + (rest.take bs).length ≤ part_max then [pending ++ rest.take bs]
      else
        (pending ++ rest.take bs).take ((bs + (rest.take bs).length) / 2) ::
          upload_chunk_loop bs fuel
            ((pending ++ rest.take bs).drop ((bs + (rest.take bs).length) / 2))
            (rest.drop bs)
    else pending :: upload_chunk_loop bs fuel (rest.take bs) (rest.drop bs)

/-- One `_upload_chunk` call on a full buffer (multipart path): the initial
read `data1 = buffer.read(blocksize)` followed by the loop. -/
def upload_chunk (bs : Nat) (buf : List Nat) : List (List Nat) :=
  upload_chunk_loop bs (buf.length + 1) (buf.take bs) (buf.drop bs)

lemma ucl_succ (bs fuel : Nat) (pending rest : List Nat) :
    upload_chunk_loop bs (fuel + 1) pending rest =
      if pending = [] then []
      else if 0 < (rest.take bs).length ∧ (rest.take bs).length < bs then
        if bs + (rest.take bs).length ≤ part_max then [pending ++ rest.take bs]
        else
          (pending ++ rest.take bs).take ((bs + (rest.take bs).length) / 2) ::
            upload_chunk_loop bs fuel
              ((pending ++ rest.take bs).drop ((bs + (rest.take bs).length) / 2))
              (rest.drop bs)
      else pending :: upload_chunk_loop bs fuel (rest.take bs) (rest.drop bs) := rfl

lemma ucl_nil_pending (bs : Nat) (fuel : Nat) (rest : List Nat) :
    upload_chunk_loop bs fuel [] rest = [] := by
  cases fuel with
  | zero => rfl
  | succ n => rw [ucl_succ, if_pos rfl]

lemma ucl_nil_rest (bs : Nat) :
    ∀ (fuel : Nat) (pending : List Nat), pending.length < fuel →
      upload_chunk_loop bs fuel pending [] = if pending = [] then [] else [pending] := by
  intro fuel
  induction fuel with
  | zero => intro pending h; exact absurd h (by omega)
  | succ n ih =>
    intro pending h
    rw [ucl_succ]
    by_cases hpe : pending = []
    · rw [if_pos hpe, if_pos hpe]
    · rw [if_neg hpe, if_neg hpe, if_neg (by simp)]
      rw [List.take_nil, List.drop_nil, ucl_nil_pending]

lemma ucl_join (bs : Nat) (hbs : 1 ≤ bs) :
    ∀ (fuel : Nat) (pending rest : List Nat),
      pending.length + rest.length < fuel → (pending = [] → rest = []) →
      (upload_chunk_loop bs fuel pending rest).flatten = pending ++ rest := by
  intro fuel
  induction fuel with
  | zero => intro pending rest h _; exact absurd h (by omega)
  | succ n ih =>
    intro pending rest hfuel hinv
    rw [ucl_succ]
    by_cases hpe : pending = []
    · rw [if_pos hpe, hpe, hinv hpe]
      rfl
    · rw [if_neg hpe]
      have hplen : 1 ≤ pending.length := by
        cases pending with
        | nil => exact absurd rfl hpe
        | cons a l => simp
      have htl : (rest.take bs).length = min bs rest.length := List.length_take bs rest
      by_cases hmerge : 0 < (rest.take bs).length ∧ (rest.take bs).length < bs
      · obtain ⟨hm1, hm2⟩ := hmerge
        rw [if_pos ⟨hm1, hm2⟩]
        have hrlt : rest.length < bs := by omega
        have hdall : rest.take bs = rest := List.take_of_length_le (by omega)
        by_cases hsmall : bs + (rest.take bs).length ≤ part_max
        · rw [if_pos hsmall]
          show (pending ++ rest.take bs) ++ [].flatten = pending ++ rest
          rw [hdall]
          simp
        · rw [if_neg hsmall]
          have hrest' : rest.drop bs = [] := List.drop_eq_nil_of_le (by omega)
          have hp0pos : 1 ≤ (bs + (rest.take bs).length) / 2 := by omega
          have hfuel2 : ((pending ++ rest.take bs).drop
              ((bs + (rest.take bs).length) / 2)).length + (rest.drop bs).length < n := by
            rw [List.length_drop, List.length_append, hrest']
            simp only [List.length_nil]
            omega
          have hjoin := ih _ _ hfuel2 (fun _ => hrest')
          show (pending ++ rest.take bs).take ((bs + (rest.take bs).length) / 2) ++
            (upload_chunk_loop bs n _ _).flatten = pending ++ rest
          rw [hjoin, hrest', List.append_nil, List.take_append_drop, hdall]
      · rw [if_neg hmerge]
        by_cases hd0 : (rest.take bs).length = 0
        · have hrnil : rest = [] := by
            rcases List.take_eq_nil_iff.1 (List.eq_nil_of_length_eq_zero hd0) with h | h
            · omega
            · exact h
          rw [hrnil]
          show pending ++ (upload_chunk_loop bs n (List.take bs []) (List.drop bs [])).flatten =
            pending ++ []
          rw [List.take_nil, List.drop_nil, ucl_nil_pending]
          rfl
        · have hge : bs ≤ (rest.take bs).length := by
            by_contra hlt
            push_neg at hlt
            exact hmerge ⟨Nat.pos_of_ne_zero hd0, hlt⟩
          have hdbs : (rest.take bs).length = bs := by omega
          have hfuel2 : (rest.take bs).length + (rest.drop bs).length < n := by
            rw [List.length_drop, hdbs]
            omega
          have hjoin := ih (rest.take bs) (rest.drop bs) hfuel2 (by
            intro h
            rw [h] at hdbs
            simp at hdbs
            omega)
          show pending ++ (upload_chunk_loop bs n (rest.take bs) (rest.drop bs)).flatten =
            pending ++ rest
          rw [hjoin, List.take_append_drop]

lemma ucl_bounds (bs : Nat) (hbs1 : part_min ≤ bs) (hbs2 : bs ≤ part_max) :
    ∀ (fuel : Nat) (pending rest : List Nat),
      pending.length + rest.length < fuel → pending.length = bs →
      ∀ q ∈ upload_chunk_loop bs fuel pending rest,
        part_min ≤ q.length ∧ q.length ≤ part_max := by
  have hpm := part_min_eq
  have hpx := part_max_eq
  intro fuel
  induction fuel with
  | zero => intro pending rest h _ q _; exact absurd h (by omega)
  | succ n ih =>
    intro pending rest hfuel hlen q hq
    rw [ucl_succ] at hq
    have hpe : ¬ pending = [] := by
      intro h
      rw [h] at hlen
      simp at hlen
      omega
    rw [if_neg hpe] at hq
    have htl : (rest.take bs).length = min bs rest.length := List.length_take bs rest
    by_cases hmerge : 0 < (rest.take bs).length ∧ (rest.take bs).length < bs
    · obtain ⟨hm1, hm2⟩ := hmerge
      rw [if_pos ⟨hm1, hm2⟩] at hq
      by_cases hsmall : bs + (rest.take bs).length ≤ part_max
      · rw [if_pos hsmall] at hq
        have hq2 : q = pending ++ rest.take bs := by simpa using hq
        rw [hq2, List.length_append]
        omega
      · rw [if_neg hsmall] at hq
        have hrlt : rest.length < bs := by omega
        have hrest' : rest.drop bs = [] := List.drop_eq_nil_of_le (by omega)
        have hlenA : (pending ++ rest.take bs).length = bs + (rest.take bs).length := by
          rw [List.length_append, hlen]
        rw [hrest'] at hq
        have hdroplen : ((pending ++ rest.take bs).drop
            ((bs + (rest.take bs).length) / 2)).length < n := by
          rw [List.length_drop, hlenA]
          omega
        rw [ucl_nil_rest bs n _ hdroplen] at hq
        rcases List.mem_cons.1 hq with h | h
        · rw [h, List.length_take, hlenA]
          omega
        · by_cases hde : (pending ++ rest.take bs).drop
              ((bs + (rest.take bs).length) / 2) = []
          · rw [if_pos hde] at h
            exact absurd h (List.not_mem_nil q)
          · rw [if_neg hde] at h
            have hq2 : q = (pending ++ rest.take bs).drop
                ((bs + (rest.take bs).length) / 2) := by simpa using h
            rw [hq2, List.length_drop, hlenA]
            omega
    · rw [if_neg hmerge] at hq
      rcases List.mem_cons.1 hq with h | h
      · rw [h, hlen]
        omega
      · by_cases hd0 : (rest.take bs).length = 0
        · rw [List.eq_nil_of_length_eq_zero hd0, ucl_nil_pending] at h
          exact absurd h (List.not_mem_nil q)
        · have hge : bs ≤ (rest.take bs).length := by
            by_contra hlt
            push_neg at hlt
            exact hmerge ⟨Nat.pos_of_ne_zero hd0, hlt⟩
          have hdbs : (rest.take bs).length = bs := by omega
          have hfuel2 : (rest.take bs).length + (rest.drop bs).length < n := by
            rw [List.length_drop, hdbs]
            omega
          exact ih (rest.take bs) (rest.drop bs) hfuel2 hdbs q h

lemma upload_chunk_flatten (bs : Nat) (hbs : 1 ≤ bs) (buf : List Nat) :
    (upload_chunk bs buf).flatten = buf := by
  unfold upload_chunk
  rw [ucl_join bs hbs _ _ _ ?_ ?_]
  · exact List.take_append_drop bs buf
  · rw [List.length_take, List.length_drop]
    omega
  · intro h
    rcases List.take_eq_nil_iff.1 h with h1 | h1
    · omega
    · rw [h1, List.drop_nil]

lemma upload_chunk_bounds (bs : Nat) (hbs1 : part_min ≤ bs) (hbs2 : bs ≤ part_max)
    (buf : List Nat) (hbuf : bs ≤ buf.length) :
    ∀ q ∈ upload_chunk bs buf, part_min ≤ q.length ∧ q.length ≤ part_max := by
  intro q hq
  refine ucl_bounds bs hbs1 hbs2 _ _ _ ?_ ?_ q hq
  · rw [List.length_take, List.length_drop]
    omega
  · rw [List.length_take]
    omega

lemma upload_chunk_small (bs : Nat) (buf : List Nat) (h : buf.length < bs) :
    upload_chunk bs buf = if buf = [] then [] else [buf] := by
  unfold upload_chunk
  rw [List.take_of_length_le (by omega), List.drop_eq_nil_of_le (by omega),
    ucl_nil_rest bs _ buf (by omega)]

lemma mem_of_dropLast {α : Type} (l : List α) (q : α) (h : q ∈ l.dropLast) : q ∈ l := by
  rw [List.dropLast_eq_take] at h
  exact List.mem_of_mem_take h

lemma mem_dropLast_append {α : Type} (X Y : List α) (q : α)
    (h : q ∈ (X ++ Y).dropLast) : q ∈ X ∨ q ∈ Y.dropLast := by
  by_cases hY : Y = []
  · subst hY
    rw [List.append_nil] at h
    exact Or.inl (mem_of_dropLast X q h)
  · rw [List.dropLast_eq_take, List.length_append, List.take_append_eq_append_take] at h
    rcases List.mem_append.1 h with h | h
    · exact Or.inl (List.mem_of_mem_take h)
    · right
      rw [List.dropLast_eq_take]
      have hYlen : 1 ≤ Y.length := List.length_pos.2 hY
      have harith : X.length + Y.length - 1 - X.length = Y.length - 1 := by omega
      rwa [harith] at h

/-- The parts produced by a whole sequence of `_upload_chunk` flushes, in
part-number order. -/
def flush_parts (bs : Nat) (bufs : List (List Nat)) : List (List Nat) :=
  (bufs.map (upload_chunk bs)).flatten

/-- C1: for any sequence of flushed buffers (each non-final flush carries
at least one full block, as `AbstractBufferedFile.flush` guarantees), and
a block size within the legal `[part_min, part_max]` range, every uploaded
part except possibly the last has size within `[part_min, part_max]`, and
the concatenation of all parts in part-number order is exactly the bytes
the caller wrote. -/
theorem s3file_upload_chunk_rebalance (bs : Nat) (bufs : List (List Nat))
    (hbs1 : part_min ≤ bs) (hbs2 : bs ≤ part_max)
    (hflush : ∀ b ∈ bufs.dropLast, bs ≤ b.length) :
    (∀ q ∈ (flush_parts bs bufs).dropLast,
      part_min ≤ q.length ∧ q.length ≤ part_max) ∧
    (flush_parts bs bufs).flatten = bufs.flatten := by
  have hbs0 : 1 ≤ bs := by
    have := part_min_eq
    omega
  constructor
  · intro q hq
    by_cases hne : bufs = []
    · rw [hne] at hq
      exact absurd hq (by simp [flush_parts])
    · have hdecomp : bufs.dropLast ++ [bufs.getLast hne] = bufs :=
        List.dropLast_append_getLast hne
      have hsplit : flush_parts bs bufs =
          flush_parts bs bufs.dropLast ++ upload_chunk bs (bufs.getLast hne) := by
        conv_lhs => rw [← hdecomp]
        unfold flush_parts
        rw [List.map_append, List.flatten_append]
        simp
      rw [hsplit] at hq
      rcases mem_dropLast_append _ _ q hq with h | h
      · have hmem : ∃ b ∈ bufs.dropLast, q ∈ upload_chunk bs b := by
          unfold flush_parts at h
          rw [List.mem_flatten] at h
          obtain ⟨l, hl, hql⟩ := h
          rw [List.mem_map] at hl
          obtain ⟨b, hb, rfl⟩ := hl
          exact ⟨b, hb, hql⟩
        obtain ⟨b, hb, hqb⟩ := hmem
        exact upload_chunk_bounds bs hbs1 hbs2 b (hflush b hb) q hqb
      · by_cases hlast : bs ≤ (bufs.getLast hne).length
        · exact upload_chunk_bounds bs hbs1 hbs2 _ hlast q (mem_of_dropLast _ q h)
        · rw [upload_chunk_small bs _ (by omega)] at h
          by_cases hemp : bufs.getLast hne = []
          · rw [if_pos hemp] at h
            exact absurd h (by simp)
          · rw [if_neg hemp] at h
            exact absurd h (by simp)
  · clear hflush
    unfold flush_parts
    induction bufs with
    | nil => rfl
    | cons b t ih =>
      show ((upload_chunk bs b) ++ (t.map (upload_chunk bs)).flatten).flatten =
        (b :: t).flatten
      rw [List.flatten_append, upload_chunk_flatten bs hbs0 b]
      show b ++ ((t.map (upload_chunk bs)).flatten).flatten = b ++ t.flatten
      rw [ih]

/-- Witness for C1: block size at the minimum, one small final flush. -/
theorem s3file_upload_chunk_rebalance_witness :
    part_min ≤ part_min ∧ part_min ≤ part_max ∧
    ((∀ q ∈ (flush_parts part_min [[1, 2, 3]]).dropLast,
        part_min ≤ q.length ∧ q.length ≤ part_max) ∧
      (flush_parts part_min [[1, 2, 3]]).flatten = [[1, 2, 3]].flatten) := by
  refine ⟨le_refl _, ?_, ?_⟩
  · rw [part_min_eq, part_max_eq]
    omega
  · refine s3file_upload_chunk_rebalance part_min [[1, 2, 3]] (le_refl _) ?_ ?_
    · rw [part_min_eq, part_max_eq]
      omega
    · intro b hb
      simp at hb
